import Mathlib

/-!
# Verification of the memvid-ts core against its specification

Shallow embedding of the memvid-ts TypeScript sources:
* `src/indexManager.ts` (`HNSWIndexManager`: `addChunks`, `search`, `save`, `load`),
* `src/encoder.ts` (`MemvidEncoder.buildVideo`, index-relevant part),
* `src/retriever.ts` (`MemvidRetriever._decodeSingleFrame`, frame-decode stage of `search`),
* `src/utils.ts` (`chunkText`, `simpleChunkText`, `processQrText`,
  compression step of `generateQrBuffer`),
* `src/memvidChat.ts` (`MemvidChat.chat`, `getContext`).

External collaborators (embedding model, ANN graph, QR codec, ffmpeg, pako,
base64, file I/O) are opaque boundaries; they are passed in as function
parameters ("oracles") and constrained by hypotheses that state their
documented contracts.  JavaScript `Map` objects are modelled as
insertion-ordered association lists, JavaScript objects used as
number-keyed dictionaries likewise.  JavaScript numbers that are used as
ids, lengths and counters are modelled as `Nat`; embedding coordinates and
distances as `Rat`.
-/

namespace Memvid

/-! ## JavaScript `Map` / object model -/

/-- `Map.get` / property read on a number-keyed object: the value stored at
key `k`, if present. -/
def mapGet {α : Type} (m : List (Nat × α)) (k : Nat) : Option α :=
  (m.find? (fun p => p.1 == k)).map (fun p => p.2)

/-- `Map.set` / property write: replace the value at `k` in place when the
key is present, otherwise append the new binding (JS `Map` keeps insertion
order). -/
def mapSet {α : Type} (m : List (Nat × α)) (k : Nat) (v : α) : List (Nat × α) :=
  if m.any (fun p => p.1 == k) then
    m.map (fun p => if p.1 == k then (k, v) else p)
  else
    m ++ [(k, v)]

/-! ## Data model of `indexManager.ts` -/

/-- `ChunkMetadata` from `indexManager.ts`: the `IndexEntry` of the spec.
The chunk text is deliberately not stored. -/
structure ChunkMetadata where
  id : Nat
  frame : Nat
  length : Nat
  deriving Repr, DecidableEq

/-- `SearchResult` from `indexManager.ts`. -/
structure SearchResult where
  chunk_id : Nat
  metadata : ChunkMetadata
  distance : Rat
  deriving Repr, DecidableEq

/-- The mutable state of an initialized `HNSWIndexManager`:
`metadata : Map<number, ChunkMetadata>` and `nextChunkId : number`.
The ANN graph itself is an external boundary and is not part of the state. -/
structure IndexState where
  metadata : List (Nat × ChunkMetadata)
  nextChunkId : Nat
  deriving Repr, DecidableEq

/-- Result of one `addChunks` call: the returned ids, the resulting state and
the list of batches sent to the external embedding model (observable boundary
calls, used to state that the model is or is not invoked). -/
structure AddChunksResult where
  addedIds : List Nat
  state : IndexState
  embedCalls : List (List String)
  deriving Repr, DecidableEq

/-- The `for` loop of `HNSWIndexManager.addChunks` (indexManager.ts lines
102-130).  One item per embedding returned by the model, paired with the
corresponding chunk text and frame number.  A vector whose length differs
from the configured dimension is skipped without consuming an id; otherwise
the next id is assigned and, when the external `index.addPoint` call
succeeds (`addPointOk`), the `ChunkMetadata` entry is recorded and the id
is appended to `addedIds`; when `addPoint` throws, the error is caught and
the id stays consumed but nothing is recorded. -/
def addChunksLoop (dim : Nat) (addPointOk : Nat → Bool) :
    List (List Rat × String × Nat) → IndexState → List Nat × IndexState
  | [], st => ([], st)
  | (e, c, f) :: rest, st =>
    if e.length ≠ dim then
      addChunksLoop dim addPointOk rest st
    else
      let cid := st.nextChunkId
      if addPointOk cid then
        let st1 : IndexState :=
          ⟨mapSet st.metadata cid ⟨cid, f, c.length⟩, cid + 1⟩
        let r := addChunksLoop dim addPointOk rest st1
        (cid :: r.1, r.2)
      else
        addChunksLoop dim addPointOk rest ⟨st.metadata, cid + 1⟩

/-- The per-item worklist of one `addChunks` call: the embeddings returned
by the model for the batch, paired positionally with the chunk texts and
frame numbers (the loop indexes `chunks[i]` / `frames[i]` at the index of
each returned embedding). -/
def addItems (embed : List String → List (List Rat))
    (chunks : List String) (frames : List Nat) :
    List (List Rat × String × Nat) :=
  ((embed chunks).zip (chunks.zip frames)).map (fun p => (p.1, p.2.1, p.2.2))

/-- `HNSWIndexManager.addChunks` (indexManager.ts lines 87-134).  Returns
immediately on an empty batch, before the embedding model is invoked;
otherwise embeds all texts in one call and runs the per-item loop. -/
def addChunks (dim : Nat) (addPointOk : Nat → Bool)
    (embed : List String → List (List Rat))
    (chunks : List String) (frames : List Nat) (st : IndexState) :
    AddChunksResult :=
  if chunks.length = 0 then ⟨[], st, []⟩
  else
    let r := addChunksLoop dim addPointOk (addItems embed chunks frames) st
    ⟨r.1, r.2, [chunks]⟩

/-- The join of `HNSWIndexManager.search` (indexManager.ts lines 151-160):
each ANN hit `(id, score)` is joined to its `ChunkMetadata`; hits without
metadata are dropped with a warning. -/
def searchJoin (meta : List (Nat × ChunkMetadata)) :
    List (Nat × Rat) → List SearchResult
  | [] => []
  | (cid, dist) :: rest =>
    match mapGet meta cid with
    | some m => ⟨cid, m, dist⟩ :: searchJoin meta rest
    | none => searchJoin meta rest

/-- `HNSWIndexManager.search` (indexManager.ts lines 136-163).  An empty
query, a missing query embedding (`embed` returning no vector) or a
dimension mismatch yield the empty result; otherwise the external
`index.searchKNN` boundary is queried and its hits are joined to the
metadata map. -/
def search (dim : Nat) (embed : List String → List (List Rat))
    (knn : List Rat → Nat → List (Nat × Rat))
    (query : String) (topK : Nat) (st : IndexState) : List SearchResult :=
  if query = "" then []
  else
    match (embed [query]).head? with
    | none => []
    | some qe =>
      if qe.length ≠ dim then []
      else searchJoin st.metadata (knn qe topK)

/-- The metadata artifact written by `HNSWIndexManager.save`
(indexManager.ts lines 176-179): the JSON value
`{nextChunkId, metadata: Array.from(this.metadata.entries())}`.
JSON serialization and file I/O are a faithful boundary. -/
structure MetaArtifact where
  nextChunkId : Nat
  metadata : List (Nat × ChunkMetadata)
  deriving Repr, DecidableEq

/-- `HNSWIndexManager.save` (metadata side, indexManager.ts lines 165-180). -/
def save (st : IndexState) : MetaArtifact :=
  ⟨st.nextChunkId, st.metadata⟩

/-- `new Map(entries)`: inserts the entries in order into a fresh map. -/
def mapFromEntries (entries : List (Nat × ChunkMetadata)) :
    List (Nat × ChunkMetadata) :=
  entries.foldl (fun m p => mapSet m p.1 p.2) []

/-- `HNSWIndexManager.load` (metadata side, indexManager.ts lines 189-205):
`this.metadata = new Map(serializableMetadata); this.nextChunkId = nextChunkId`. -/
def load (a : MetaArtifact) : IndexState :=
  ⟨mapFromEntries a.metadata, a.nextChunkId⟩

/-- Well-formedness invariant of a reachable `HNSWIndexManager` state: the
metadata entries carry pairwise distinct, strictly increasing keys, all
below `nextChunkId`. -/
def WF (st : IndexState) : Prop :=
  st.metadata.Pairwise (fun p q => p.1 < q.1) ∧
    ∀ p ∈ st.metadata, p.1 < st.nextChunkId

instance (st : IndexState) : Decidable (WF st) :=
  inferInstanceAs (Decidable (_ ∧ _))


/-! ## Encoder (`encoder.ts`) -/

/-- The per-chunk frame loop of `MemvidEncoder.buildVideo` (encoder.ts lines
131-148): for each accumulated chunk, in order, a QR image for the payload
`{text, frame}` is generated at the external QR boundary (`qrOk` tells
whether generation succeeds for that frame); on success the frame image is
written to the temp dir and the chunk is added to the index under the same
frame number via `addChunks([chunk], [frame])`; on failure the frame is
skipped with a warning. -/
def buildVideoLoop (dim : Nat) (ok : Nat → Bool)
    (embed : List String → List (List Rat)) (qrOk : Nat → Bool) :
    List (Nat × String) → IndexState → IndexState
  | [], st => st
  | (i, c) :: rest, st =>
    if qrOk i then
      buildVideoLoop dim ok embed qrOk rest (addChunks dim ok embed [c] [i] st).state
    else
      buildVideoLoop dim ok embed qrOk rest st

/-- The index-relevant behavior of `MemvidEncoder.buildVideo` (encoder.ts
lines 109-212) on the accumulated chunk queue.  With no chunks, only
`initIndex` runs and the index stays empty.  Otherwise the index is
initialized fresh, the per-frame loop runs, the video is assembled at the
ffmpeg boundary (no index effect), and then — step "3. Index Building",
lines 179-181 — ALL accumulated chunks are added to the index once more as
a single batch over frames `0..n-1` before the index is saved. -/
def buildVideoIndex (dim : Nat) (ok : Nat → Bool)
    (embed : List String → List (List Rat)) (qrOk : Nat → Bool)
    (chunks : List String) : IndexState :=
  if chunks.length = 0 then ⟨[], 0⟩
  else
    (addChunks dim ok embed chunks (List.range chunks.length)
      (buildVideoLoop dim ok embed qrOk chunks.enum ⟨[], 0⟩)).state


/-! ## Chunker (`utils.ts`): `chunkText` and `simpleChunkText`

JS strings are modelled as `List Char`; `String` wrappers appear only at
the API surface.  JS `\\s` is modelled by the ASCII whitespace characters
(the inputs of this development are ASCII). -/

/-- ASCII whitespace, the fragment of the JS `\\s` class used here. -/
def isWs (c : Char) : Bool :=
  c == ' ' || c == '\t' || c == '\n' || c == '\r' || c == '\x0b' || c == '\x0c'

/-- Sentence-ending punctuation of the splitter regex `[.?!]`. -/
def isPunct (c : Char) : Bool :=
  c == '.' || c == '?' || c == '!'

/-- Lookbehind test on the previously consumed character, if any. -/
def isPunctOpt : Option Char → Bool
  | some c => isPunct c
  | none => false

/-- JS `String.prototype.trim` on the character list. -/
def trimL (cs : List Char) : List Char :=
  ((cs.dropWhile isWs).reverse.dropWhile isWs).reverse

/-- JS `String.prototype.trim`. -/
def trimS (s : String) : String :=
  String.mk (trimL s.toList)

/-- The split of `chunkText` (utils.ts line 291) on the regex
`(?<=[.?!])\\s+|\\n\\n+|\\r\\n\\r\\n+`, scanned left to right with the
alternatives tried in order; each quantifier is greedy.  `prev` is the
character before the current position (the lookbehind context); after a
separator the character before the next position is the whitespace that
ended the separator, never punctuation, so `prev` is reset to a whitespace
character.  `fuel` bounds the recursion; every step consumes at least one
character, so `length + 1` fuel never runs out. -/
def splitSentencesAux : Nat → Option Char → List Char → List Char → List (List Char)
  | 0, _, acc, _ => [acc.reverse]
  | _ + 1, _, acc, [] => [acc.reverse]
  | fuel + 1, prev, acc, c :: rest =>
    if isPunctOpt prev && isWs c then
      acc.reverse :: splitSentencesAux fuel (some ' ') [] (rest.dropWhile isWs)
    else if c == '\n' && rest.head? == some '\n' then
      acc.reverse :: splitSentencesAux fuel (some '\n') []
        (rest.dropWhile (fun x => x == '\n'))
    else if c == '\r' && rest.take 3 == ['\n', '\r', '\n'] then
      acc.reverse :: splitSentencesAux fuel (some '\n') []
        ((rest.drop 3).dropWhile (fun x => x == '\n'))
    else
      splitSentencesAux fuel (some c) (c :: acc) rest

/-- `text.split(sentenceEndings)` of `chunkText` (utils.ts line 292). -/
def splitSentences (cs : List Char) : List (List Char) :=
  splitSentencesAux (cs.length + 1) none [] cs

/-- The `while` loop of `simpleChunkText` (utils.ts lines 264-272):
window = `size`, stride = `size - overlap`, with the guard that forces
progress when the stride would not pass the window end.  `fuel` bounds the
loop; the index strictly increases each iteration, so `length + 1` fuel
never runs out. -/
def simpleChunkTextLoop (cs : List Char) (size ov : Nat) : Nat → Nat → List (List Char)
  | _, 0 => []
  | i, fuel + 1 =>
    if i < cs.length then
      (cs.drop i).take (min (i + size) cs.length - i) ::
        simpleChunkTextLoop cs size ov
          (if min (i + size) cs.length ≤ i + (size - ov) ∧
              min (i + size) cs.length < cs.length then
            min (i + size) cs.length
          else i + (size - ov)) fuel
    else []

/-- `simpleChunkText` (utils.ts lines 259-274).  The JS guard
`overlap >= size` sets `overlap = size / 2` (a JS float; `chunkText` always
clamps overlap below `chunkSize` before delegating, so this branch is
unreachable from `chunkText`; integer division models the guard totally). -/
def simpleChunkTextCore (cs : List Char) (size ov0 : Nat) : List (List Char) :=
  if cs = [] ∨ size = 0 then []
  else
    (simpleChunkTextLoop cs size (if size ≤ ov0 then size / 2 else ov0) 0
      (cs.length + 1)).filter (fun c => !c.isEmpty)

/-- The sentence-accumulation loop of `chunkText` (utils.ts lines 298-351):
a sentence longer than `chunkSize` flushes the pending chunk and is split
by the character fallback; a sentence that would overflow the pending chunk
(one joining space counted) flushes it and starts the next chunk; otherwise
the sentence is appended with a single joining space. -/
def chunkLoop (size ov : Nat) :
    List (List Char) → List (List Char) × List Char → List (List Char) × List Char
  | [], acc => acc
  | s :: rest, (chunks, cur) =>
    if (trimL s).length = 0 then chunkLoop size ov rest (chunks, cur)
    else if size < (trimL s).length then
      chunkLoop size ov rest
        ((if 0 < (trimL cur).length then chunks ++ [trimL cur] else chunks) ++
          (simpleChunkTextCore (trimL s) size ov).filter (fun sc => !sc.isEmpty), [])
    else if size < cur.length + (if 0 < cur.length then 1 else 0) + (trimL s).length ∧
        0 < cur.length then
      chunkLoop size ov rest (chunks ++ [trimL cur], trimL s)
    else
      chunkLoop size ov rest
        (chunks, if 0 < cur.length then cur ++ ' ' :: trimL s else trimL s)

/-- `chunkText` (utils.ts lines 276-358).  Empty or whitespace-only text and
zero chunk size yield `[]`; overlap at least `chunkSize` is clamped to
`floor(chunkSize / 2)`; text without usable sentences falls back to the
character splitter; otherwise the sentence loop runs, the pending chunk is
flushed, and empty chunks are filtered out. -/
def chunkText (text : String) (chunkSize ov0 : Nat) : List String :=
  if trimL text.toList = [] then []
  else if chunkSize = 0 then []
  else
    let ov := if chunkSize ≤ ov0 then chunkSize / 2 else ov0
    let sentences := (splitSentences text.toList).filter (fun s => !(trimL s).isEmpty)
    if sentences = [] then
      (simpleChunkTextCore text.toList chunkSize ov).map (fun l => String.mk l)
    else
      let res := chunkLoop chunkSize ov sentences ([], [])
      ((if 0 < (trimL res.2).length then res.1 ++ [trimL res.2] else res.1).filter
        (fun c => !c.isEmpty)).map (fun l => String.mk l)

/-! ## Proof-side characterizations for the chunker

These definitions are not part of the source translation; they are the
vocabulary in which the chunker theorems are stated and proved. -/

/-- The single chunk produced below is the sentences re-joined with single
spaces. -/
def joinSp : List (List Char) → List Char
  | [] => []
  | [x] => x
  | x :: xs => x ++ ' ' :: joinSp xs

/-- Specialization of the sentence splitter to inputs without whitespace
runs: split exactly at a space preceded by sentence punctuation.  The
fueled `splitSentencesAux` coincides with it on such inputs. -/
def simpleSplitAux (acc : List Char) : List Char → List (List Char)
  | [] => [acc.reverse]
  | c :: cs =>
    if isPunctOpt acc.head? && (c == ' ') then
      acc.reverse :: simpleSplitAux [] cs
    else
      simpleSplitAux (c :: acc) cs

/-- The trimmed, non-empty sentences obtained from the split pieces. -/
def sentencesOf (ps : List (List Char)) : List (List Char) :=
  (ps.map trimL).filter (fun l => !l.isEmpty)

/-- Text in which every whitespace character is a plain space and no two
whitespace characters are adjacent. -/
def SingleSpaced (cs : List Char) : Prop :=
  (∀ c ∈ cs, isWs c = true → c = ' ') ∧
  List.Chain' (fun a b => ¬(isWs a = true ∧ isWs b = true)) cs

instance (cs : List Char) : Decidable (SingleSpaced cs) :=
  inferInstanceAs (Decidable (_ ∧ _))

/-! ## Retriever (`retriever.ts`): frame cache and decode sentinels -/

/-- The per-retriever frame cache (`_frameCache`, a number-keyed object
whose stored value may be `null` for a failed decode) and its capacity
(`_cacheSize`). -/
structure RetrieverState where
  frameCache : List (Nat × Option String)
  cacheSize : Nat
  deriving Repr, DecidableEq

/-- `MemvidRetriever._decodeSingleFrame` (retriever.ts lines 129-144) with
the expensive `extractFrameAndDecode` boundary passed in (`none` models a
failed extraction or decode, which the code stores as `null`).  Returns the
decoded value, the new state and the number of extractions performed.  A
cached value — including a cached `null` — is returned without extraction;
on a miss the frame is extracted once and the result is cached only while
the cache is below capacity. -/
def decodeSingleFrame (extract : Nat → Option String) (st : RetrieverState)
    (n : Nat) : Option String × RetrieverState × Nat :=
  match mapGet st.frameCache n with
  | some v => (v, st, 0)
  | none =>
    (extract n,
      ⟨if st.frameCache.length < st.cacheSize then
          mapSet st.frameCache n (extract n)
        else st.frameCache,
        st.cacheSize⟩,
      1)

/-- The per-frame text of `MemvidRetriever.search` (retriever.ts lines
193-205): a truthy decoded payload is parsed at the JSON boundary (`parse`
returns the `text` field, `none` models a parse failure) and a failure
yields the decode-error sentinel; a `null` or empty (falsy) decoded value
yields the not-readable sentinel.  Both sentinels embed the frame number. -/
def frameText (parse : String → Option String) (dec : Option String) (n : Nat) : String :=
  match dec with
  | some t =>
    if t = "" then "[Frame " ++ toString n ++ " not readable]"
    else
      match parse t with
      | some txt => txt
      | none => "[Frame " ++ toString n ++ " decode error]"
  | none => "[Frame " ++ toString n ++ " not readable]"

/-- The frame-decode stage of `MemvidRetriever.search` (retriever.ts lines
184-209): one text per search result, each frame decoded through
`_decodeSingleFrame`, threading the cache and counting extractions. -/
def searchTexts (parse : String → Option String) (extract : Nat → Option String) :
    List Nat → RetrieverState → List String × RetrieverState × Nat
  | [], st => ([], st, 0)
  | n :: rest, st =>
    let d := decodeSingleFrame extract st n
    let r := searchTexts parse extract rest d.2.1
    (frameText parse d.1 n :: r.1, r.2.1, d.2.2 + r.2.2)

/-! ## QR payload compression (`utils.ts`): `processQrText` and the
compression step of `generateQrBuffer` -/

/-- `qrText.startsWith("GZ:")`. -/
def startsWithGZ (s : String) : Bool :=
  s.toList.take 3 == ['G', 'Z', ':']

/-- `qrText.substring(3)`. -/
def dropGZ (s : String) : String :=
  String.mk (s.toList.drop 3)

/-- `processQrText` (utils.ts lines 141-155), with the external `atob` and
`pako.ungzip` boundaries passed in (`none` models a thrown error, which the
code catches, returning the raw text unchanged). -/
def processQrText (atobF : String → Option (List Nat))
    (ungzipF : List Nat → Option String) (qrText : String) : String :=
  if startsWithGZ qrText then
    match atobF (dropGZ qrText) with
    | some compressed =>
      match ungzipF compressed with
      | some d => d
      | none => qrText
    | none => qrText
  else qrText

/-- The compression step of `generateQrBuffer` (utils.ts lines 217-232): a
payload longer than 100 characters is gzipped at the pako boundary and
base64-encoded at the `btoa` boundary, with the literal `"GZ:"` prefix;
otherwise it is emitted plain. -/
def compressPayload (gzipF : String → List Nat) (btoaF : List Nat → String)
    (data : String) : String :=
  if 100 < data.length then "GZ:" ++ btoaF (gzipF data) else data

/-- Modelled from the spec: `pako.gzip` is an opaque, invertible byte codec
("optionally gzip-compressed"); real gzip streams begin with the magic
bytes 31, 139.  The model prepends the magic and stores the code points. -/
def gzipModel (s : String) : List Nat :=
  31 :: 139 :: s.toList.map Char.toNat

/-- Modelled from the spec: inverse of the `gzipModel` boundary; input not
produced by gzip (wrong magic) fails, as `pako.ungzip` throws on it. -/
def ungzipModel (bs : List Nat) : Option String :=
  match bs with
  | 31 :: 139 :: rest => some (String.mk (rest.map Char.ofNat))
  | _ => none

/-- Modelled from the spec: the `btoa` base64 boundary, as an injective
byte-to-string encoding. -/
def btoaModel (bs : List Nat) : String :=
  String.mk (bs.map Char.ofNat)

/-- Modelled from the spec: inverse of the `btoaModel` boundary. -/
def atobModel (s : String) : Option (List Nat) :=
  some (s.toList.map Char.toNat)

/-! ## Chat (`memvidChat.ts`) -/

/-- A chat message, as in `llmClient.ts`. -/
structure ChatMessage where
  role : String
  content : String
  deriving Repr, DecidableEq

/-- The context-concatenation loop of `MemvidChat.getContext`
(memvidChat.ts lines 80-87): a chunk that would push the running length
past `maxContextTokens` stops the loop (whole chunks only); otherwise the
chunk is appended with a blank-line separator. -/
def combineContextLoop (maxTok : Nat) : List String → String → String
  | [], acc => acc
  | c :: rest, acc =>
    if maxTok < (acc ++ c).length then acc
    else combineContextLoop maxTok rest (acc ++ c ++ "\n\n")

/-- `MemvidChat.getContext` (memvidChat.ts lines 67-90), with the retriever
search results passed in. -/
def getContext (contextChunks : List String) (maxTok : Nat) : String :=
  if contextChunks = [] then ""
  else trimS (combineContextLoop maxTok contextChunks "")

/-- `MemvidChat.chat` (memvidChat.ts lines 97-105): retrieval-only — it
returns the retrieved context (or a fixed no-context message) and performs
no other action; in particular `conversationHistory` is not read, written
or trimmed, and no LLM prompt is composed. -/
def chat (retrieved : List String) (maxTok : Nat) (hist : List ChatMessage)
    (message : String) : String × List ChatMessage :=
  let context := getContext retrieved maxTok
  (if context ≠ "" then "Context from video:\n" ++ context
    else "No relevant context found in the video for your query.", hist)

/-! # Theorems

## Lemmas about the JS map model -/

theorem mapSet_of_not_mem {α : Type} (m : List (Nat × α)) (k : Nat) (v : α)
    (h : ∀ p ∈ m, p.1 ≠ k) : mapSet m k v = m ++ [(k, v)] := by
  unfold mapSet
  rw [if_neg]
  simp only [List.any_eq_true, beq_iff_eq, not_exists]
  intro p
  exact fun hq => absurd hq.2 (h p hq.1)

theorem mapGet_append_right {α : Type} (m : List (Nat × α)) (k : Nat) (v : α)
    (h : ∀ p ∈ m, p.1 ≠ k) : mapGet (m ++ [(k, v)]) k = some v := by
  unfold mapGet
  rw [List.find?_append]
  have hnone : m.find? (fun p => p.1 == k) = none := by
    rw [List.find?_eq_none]
    intro p hp
    simp only [beq_iff_eq]
    exact h p hp
  simp [hnone]

/-! ## Lemmas about `addChunksLoop` -/

theorem addChunksLoop_nil (dim : Nat) (ok : Nat → Bool) (st : IndexState) :
    addChunksLoop dim ok [] st = ([], st) := rfl

theorem addChunksLoop_cons_skip (dim : Nat) (ok : Nat → Bool)
    (e : List Rat) (c : String) (f : Nat)
    (rest : List (List Rat × String × Nat)) (st : IndexState)
    (h : e.length ≠ dim) :
    addChunksLoop dim ok ((e, c, f) :: rest) st = addChunksLoop dim ok rest st := by
  simp [addChunksLoop, h]

theorem addChunksLoop_cons_ok_fst (dim : Nat) (ok : Nat → Bool)
    (e : List Rat) (c : String) (f : Nat)
    (rest : List (List Rat × String × Nat)) (st : IndexState)
    (h : e.length = dim) (hok : ok st.nextChunkId = true) :
    (addChunksLoop dim ok ((e, c, f) :: rest) st).1 =
      st.nextChunkId ::
        (addChunksLoop dim ok rest
          ⟨mapSet st.metadata st.nextChunkId ⟨st.nextChunkId, f, c.length⟩,
            st.nextChunkId + 1⟩).1 := by
  simp [addChunksLoop, h, hok]

theorem addChunksLoop_cons_ok_snd (dim : Nat) (ok : Nat → Bool)
    (e : List Rat) (c : String) (f : Nat)
    (rest : List (List Rat × String × Nat)) (st : IndexState)
    (h : e.length = dim) (hok : ok st.nextChunkId = true) :
    (addChunksLoop dim ok ((e, c, f) :: rest) st).2 =
      (addChunksLoop dim ok rest
        ⟨mapSet st.metadata st.nextChunkId ⟨st.nextChunkId, f, c.length⟩,
          st.nextChunkId + 1⟩).2 := by
  simp [addChunksLoop, h, hok]

theorem addChunksLoop_cons_fail (dim : Nat) (ok : Nat → Bool)
    (e : List Rat) (c : String) (f : Nat)
    (rest : List (List Rat × String × Nat)) (st : IndexState)
    (h : e.length = dim) (hok : ok st.nextChunkId = false) :
    addChunksLoop dim ok ((e, c, f) :: rest) st =
      addChunksLoop dim ok rest ⟨st.metadata, st.nextChunkId + 1⟩ := by
  simp [addChunksLoop, h, hok]

theorem addChunksLoop_filter_dim (dim : Nat) (ok : Nat → Bool)
    (items : List (List Rat × String × Nat)) (st : IndexState) :
    addChunksLoop dim ok items st =
      addChunksLoop dim ok (items.filter (fun it => it.1.length == dim)) st := by
  induction items generalizing st with
  | nil => rfl
  | cons it rest ih =>
    obtain ⟨e, c, f⟩ := it
    by_cases hd : e.length = dim
    · rw [List.filter_cons_of_pos (by simpa using hd)]
      rcases Bool.eq_false_or_eq_true (ok st.nextChunkId) with hok | hok
      · refine Prod.ext ?_ ?_
        · rw [addChunksLoop_cons_ok_fst dim ok e c f rest st hd hok,
            addChunksLoop_cons_ok_fst dim ok e c f _ st hd hok, ih]
        · rw [addChunksLoop_cons_ok_snd dim ok e c f rest st hd hok,
            addChunksLoop_cons_ok_snd dim ok e c f _ st hd hok, ih]
      · rw [addChunksLoop_cons_fail dim ok e c f rest st hd hok,
          addChunksLoop_cons_fail dim ok e c f _ st hd hok, ih]
    · rw [List.filter_cons_of_neg (by simpa using hd),
        addChunksLoop_cons_skip dim ok e c f rest st hd, ih]

theorem addChunksLoop_nextChunkId_le (dim : Nat) (ok : Nat → Bool)
    (items : List (List Rat × String × Nat)) (st : IndexState) :
    st.nextChunkId ≤ (addChunksLoop dim ok items st).2.nextChunkId := by
  induction items generalizing st with
  | nil => exact le_refl _
  | cons it rest ih =>
    obtain ⟨e, c, f⟩ := it
    by_cases hd : e.length = dim
    · rcases Bool.eq_false_or_eq_true (ok st.nextChunkId) with hok | hok
      · rw [addChunksLoop_cons_ok_snd dim ok e c f rest st hd hok]
        exact le_trans (Nat.le_succ _)
          (ih ⟨mapSet st.metadata st.nextChunkId ⟨st.nextChunkId, f, c.length⟩,
            st.nextChunkId + 1⟩)
      · rw [addChunksLoop_cons_fail dim ok e c f rest st hd hok]
        exact le_trans (Nat.le_succ _) (ih ⟨st.metadata, st.nextChunkId + 1⟩)
    · rw [addChunksLoop_cons_skip dim ok e c f rest st hd]
      exact ih st

theorem addChunksLoop_ids_bound (dim : Nat) (ok : Nat → Bool)
    (items : List (List Rat × String × Nat)) (st : IndexState) :
    ∀ i ∈ (addChunksLoop dim ok items st).1,
      st.nextChunkId ≤ i ∧ i < (addChunksLoop dim ok items st).2.nextChunkId := by
  induction items generalizing st with
  | nil => intro i hi; simp [addChunksLoop_nil] at hi
  | cons it rest ih =>
    obtain ⟨e, c, f⟩ := it
    by_cases hd : e.length = dim
    · rcases Bool.eq_false_or_eq_true (ok st.nextChunkId) with hok | hok
      · rw [addChunksLoop_cons_ok_fst dim ok e c f rest st hd hok,
          addChunksLoop_cons_ok_snd dim ok e c f rest st hd hok]
        intro i hi
        rcases List.mem_cons.mp hi with h | h
        · subst h
          refine ⟨le_refl _, ?_⟩
          exact Nat.lt_of_lt_of_le (Nat.lt_succ_self _)
            (addChunksLoop_nextChunkId_le dim ok rest
              ⟨mapSet st.metadata st.nextChunkId ⟨st.nextChunkId, f, c.length⟩,
                st.nextChunkId + 1⟩)
        · have := ih _ i h
          exact ⟨le_trans (Nat.le_succ _) this.1, this.2⟩
      · rw [addChunksLoop_cons_fail dim ok e c f rest st hd hok]
        intro i hi
        have := ih _ i hi
        exact ⟨le_trans (Nat.le_succ _) this.1, this.2⟩
    · rw [addChunksLoop_cons_skip dim ok e c f rest st hd]
      exact ih st

theorem addChunksLoop_ids_pairwise (dim : Nat) (ok : Nat → Bool)
    (items : List (List Rat × String × Nat)) (st : IndexState) :
    List.Pairwise (· < ·) (addChunksLoop dim ok items st).1 := by
  induction items generalizing st with
  | nil => simp [addChunksLoop_nil]
  | cons it rest ih =>
    obtain ⟨e, c, f⟩ := it
    by_cases hd : e.length = dim
    · rcases Bool.eq_false_or_eq_true (ok st.nextChunkId) with hok | hok
      · rw [addChunksLoop_cons_ok_fst dim ok e c f rest st hd hok]
        refine List.pairwise_cons.mpr ⟨?_, ih _⟩
        intro i hi
        have := (addChunksLoop_ids_bound dim ok rest _ i hi).1
        exact Nat.lt_of_lt_of_le (Nat.lt_succ_self _) this
      · rw [addChunksLoop_cons_fail dim ok e c f rest st hd hok]
        exact ih _
    · rw [addChunksLoop_cons_skip dim ok e c f rest st hd]
      exact ih st

theorem addChunksLoop_metadata_append (dim : Nat) (ok : Nat → Bool)
    (items : List (List Rat × String × Nat)) (st : IndexState)
    (hb : ∀ p ∈ st.metadata, p.1 < st.nextChunkId) :
    ∃ new : List (Nat × ChunkMetadata),
      (addChunksLoop dim ok items st).2.metadata = st.metadata ++ new ∧
      new.map Prod.fst = (addChunksLoop dim ok items st).1 ∧
      ∀ p ∈ st.metadata ++ new, p.1 < (addChunksLoop dim ok items st).2.nextChunkId := by
  induction items generalizing st with
  | nil =>
    refine ⟨[], by simp [addChunksLoop_nil], by simp [addChunksLoop_nil], ?_⟩
    simpa [addChunksLoop_nil] using hb
  | cons it rest ih =>
    obtain ⟨e, c, f⟩ := it
    by_cases hd : e.length = dim
    · rcases Bool.eq_false_or_eq_true (ok st.nextChunkId) with hok | hok
      · rw [addChunksLoop_cons_ok_fst dim ok e c f rest st hd hok,
          addChunksLoop_cons_ok_snd dim ok e c f rest st hd hok]
        have hfresh : ∀ p ∈ st.metadata, p.1 ≠ st.nextChunkId :=
          fun p hp => Nat.ne_of_lt (hb p hp)
        have hset := mapSet_of_not_mem st.metadata st.nextChunkId
          ⟨st.nextChunkId, f, c.length⟩ hfresh
        have hb1 : ∀ p ∈ (mapSet st.metadata st.nextChunkId
            ⟨st.nextChunkId, f, c.length⟩), p.1 < st.nextChunkId + 1 := by
          rw [hset]
          intro p hp
          rcases List.mem_append.mp hp with h | h
          · exact Nat.lt_succ_of_lt (hb p h)
          · simp only [List.mem_singleton] at h
            subst h
            exact Nat.lt_succ_self _
        obtain ⟨new1, hm1, hids1, hb2⟩ := ih
          ⟨mapSet st.metadata st.nextChunkId ⟨st.nextChunkId, f, c.length⟩,
            st.nextChunkId + 1⟩ hb1
        refine ⟨(st.nextChunkId, ⟨st.nextChunkId, f, c.length⟩) :: new1, ?_, ?_, ?_⟩
        · rw [hm1]
          simp only [hset]
          rw [List.append_assoc]
          rfl
        · simpa using hids1
        · intro p hp
          apply hb2
          rcases List.mem_append.mp hp with h | h
          · rw [hset]
            exact List.mem_append.mpr (Or.inl (List.mem_append.mpr (Or.inl h)))
          · rcases List.mem_cons.mp h with h1 | h1
            · subst h1
              rw [hset]
              exact List.mem_append.mpr (Or.inl (List.mem_append.mpr (Or.inr (by simp))))
            · exact List.mem_append.mpr (Or.inr h1)
      · rw [addChunksLoop_cons_fail dim ok e c f rest st hd hok]
        exact ih ⟨st.metadata, st.nextChunkId + 1⟩
          (fun p hp => Nat.lt_succ_of_lt (hb p hp))
    · rw [addChunksLoop_cons_skip dim ok e c f rest st hd]
      exact ih st hb

theorem addChunksLoop_all_ok (dim : Nat)
    (items : List (List Rat × String × Nat)) (st : IndexState)
    (hd : ∀ it ∈ items, it.1.length = dim) :
    (addChunksLoop dim (fun _ => true) items st).1 =
      List.range' st.nextChunkId items.length ∧
    (addChunksLoop dim (fun _ => true) items st).2.nextChunkId =
      st.nextChunkId + items.length := by
  induction items generalizing st with
  | nil => simp [addChunksLoop_nil]
  | cons it rest ih =>
    obtain ⟨e, c, f⟩ := it
    have he : e.length = dim := hd _ (List.mem_cons_self _ _)
    have ihr := ih ⟨mapSet st.metadata st.nextChunkId ⟨st.nextChunkId, f, c.length⟩,
      st.nextChunkId + 1⟩ (fun x hx => hd x (List.mem_cons_of_mem _ hx))
    constructor
    · rw [addChunksLoop_cons_ok_fst dim (fun _ => true) e c f rest st he rfl]
      simp only [List.length_cons, List.range'_succ]
      exact congrArg _ ihr.1
    · rw [addChunksLoop_cons_ok_snd dim (fun _ => true) e c f rest st he rfl]
      simp only [List.length_cons]
      rw [ihr.2]
      show st.nextChunkId + 1 + rest.length = st.nextChunkId + (rest.length + 1)
      omega

/-! ## Lemmas about `save` / `load` -/

theorem foldl_mapSet_fresh (l acc : List (Nat × ChunkMetadata))
    (hdisj : ∀ p ∈ l, ∀ q ∈ acc, q.1 ≠ p.1)
    (hnd : l.Pairwise (fun p q => p.1 ≠ q.1)) :
    l.foldl (fun m p => mapSet m p.1 p.2) acc = acc ++ l := by
  induction l generalizing acc with
  | nil => simp
  | cons p l ih =>
    simp only [List.foldl_cons]
    have hset : mapSet acc p.1 p.2 = acc ++ [(p.1, p.2)] :=
      mapSet_of_not_mem acc p.1 p.2 (fun q hq => hdisj p (List.mem_cons_self _ _) q hq)
    rw [hset]
    rw [ih (acc ++ [(p.1, p.2)]) ?_ (List.Pairwise.of_cons hnd)]
    · simp
    · intro r hr q hq
      rcases List.mem_append.mp hq with h | h
      · exact hdisj r (List.mem_cons_of_mem _ hr) q h
      · simp only [List.mem_singleton] at h
        subst h
        exact (List.pairwise_cons.mp hnd).1 r hr


theorem mapFromEntries_eq_self (l : List (Nat × ChunkMetadata))
    (hnd : l.Pairwise (fun p q => p.1 ≠ q.1)) :
    mapFromEntries l = l := by
  unfold mapFromEntries
  simpa using foldl_mapSet_fresh l [] (by simp) hnd

theorem load_save_eq (st : IndexState) (hW : WF st) :
    load (save st) = st := by
  unfold load save
  have hnd : st.metadata.Pairwise (fun p q => p.1 ≠ q.1) :=
    hW.1.imp (fun h => Nat.ne_of_lt h)
  rw [mapFromEntries_eq_self st.metadata hnd]

/-! ## Lemmas about `searchJoin` -/

theorem searchJoin_map_sublist (meta : List (Nat × ChunkMetadata))
    (l : List (Nat × Rat)) :
    ((searchJoin meta l).map (fun r => (r.chunk_id, r.distance))).Sublist l := by
  induction l with
  | nil => simp [searchJoin]
  | cons hd tl ih =>
    obtain ⟨cid, dist⟩ := hd
    cases hm : mapGet meta cid with
    | some m =>
      simp only [searchJoin, hm, List.map_cons]
      exact List.Sublist.cons₂ _ ih
    | none =>
      simp only [searchJoin, hm]
      exact List.Sublist.cons _ ih

theorem searchJoin_mem_meta (meta : List (Nat × ChunkMetadata))
    (l : List (Nat × Rat)) :
    ∀ r ∈ searchJoin meta l, mapGet meta r.chunk_id = some r.metadata := by
  induction l with
  | nil => intro r hr; simp [searchJoin] at hr
  | cons hd tl ih =>
    obtain ⟨cid, dist⟩ := hd
    cases hm : mapGet meta cid with
    | some m =>
      simp only [searchJoin, hm]
      intro r hr
      rcases List.mem_cons.mp hr with h | h
      · subst h; exact hm
      · exact ih r h
    | none =>
      simp only [searchJoin, hm]
      exact ih

/-! ## Claim theorems -/

/-- Claim C10: on an initialized `HNSWIndexManager`, `addChunks([], [])`
returns the empty array and leaves the store completely unchanged: the
embedding model is not invoked (the list of embedding calls is empty), the
metadata map is not modified and `nextChunkId` keeps its prior value. -/
theorem C10_addChunks_empty_noop (dim : Nat) (ok : Nat → Bool)
    (embed : List String → List (List Rat)) (st : IndexState) :
    addChunks dim ok embed [] [] st = ⟨[], st, []⟩ := rfl

/-- Claim C5: for every well-formed populated store, `save` produces the
metadata artifact `{nextChunkId, metadata: entries}` and `load` of that
artifact restores exactly the id-to-`ChunkMetadata` map and the
`nextChunkId` value present at save time. -/
theorem C5_save_load_roundtrip (st : IndexState) (hW : WF st) :
    save st = ⟨st.nextChunkId, st.metadata⟩ ∧ load (save st) = st :=
  ⟨rfl, load_save_eq st hW⟩

/-- Witness for C5 at a concrete populated store. -/
theorem C5_save_load_roundtrip_witness :
    let st : IndexState := ⟨[(0, ⟨0, 0, 5⟩), (1, ⟨1, 1, 3⟩)], 2⟩
    save st = ⟨st.nextChunkId, st.metadata⟩ ∧ load (save st) = st :=
  C5_save_load_roundtrip ⟨[(0, ⟨0, 0, 5⟩), (1, ⟨1, 1, 3⟩)], 2⟩ (by decide)

/-- Claim C3: `search(query, k)` returns at most `k` results, each carrying
the metadata stored for its chunk id and a non-negative distance, in
non-decreasing distance order.  The hypotheses are the contract of the
opaque ANN graph boundary (`searchKNN` returns at most `k` nearest hits in
nearest-first order with non-negative distances under the configured
metric, default cosine); the code preserves all three properties through
the metadata join. -/
theorem search_eq_of_head? (dim topK : Nat)
    (embed : List String → List (List Rat))
    (knn : List Rat → Nat → List (Nat × Rat))
    (st : IndexState) (query : String) (qe : List Rat)
    (hq : query ≠ "") (hh : (embed [query]).head? = some qe) :
    search dim embed knn query topK st =
      if qe.length ≠ dim then [] else searchJoin st.metadata (knn qe topK) := by
  unfold search
  rw [if_neg hq, hh]

theorem C3_search_results (dim topK : Nat)
    (embed : List String → List (List Rat))
    (knn : List Rat → Nat → List (Nat × Rat))
    (st : IndexState) (query : String)
    (hlen : ∀ qe, (knn qe topK).length ≤ topK)
    (hnn : ∀ qe, ∀ p ∈ knn qe topK, 0 ≤ p.2)
    (hsorted : ∀ qe, (knn qe topK).Pairwise (fun a b => a.2 ≤ b.2)) :
    (search dim embed knn query topK st).length ≤ topK ∧
    (∀ r ∈ search dim embed knn query topK st,
      mapGet st.metadata r.chunk_id = some r.metadata ∧ 0 ≤ r.distance) ∧
    (search dim embed knn query topK st).Pairwise
      (fun a b => a.distance ≤ b.distance) := by
  by_cases hq : query = ""
  · simp [search, hq]
  · cases hh : (embed [query]).head? with
    | none =>
      have hs : search dim embed knn query topK st = [] := by
        unfold search
        rw [if_neg hq, hh]
      simp [hs]
    | some qe =>
      rw [search_eq_of_head? dim topK embed knn st query qe hq hh]
      by_cases hdim : qe.length ≠ dim
      · rw [if_pos hdim]; simp
      · rw [if_neg hdim]
        refine ⟨?_, ?_, ?_⟩
        · calc (searchJoin st.metadata (knn qe topK)).length
              = ((searchJoin st.metadata (knn qe topK)).map
                  (fun r => (r.chunk_id, r.distance))).length := by
                rw [List.length_map]
            _ ≤ (knn qe topK).length :=
                (searchJoin_map_sublist st.metadata (knn qe topK)).length_le
            _ ≤ topK := hlen qe
        · intro r hr
          refine ⟨searchJoin_mem_meta st.metadata (knn qe topK) r hr, ?_⟩
          have hmem : (r.chunk_id, r.distance) ∈ knn qe topK :=
            (searchJoin_map_sublist st.metadata (knn qe topK)).subset
              (List.mem_map_of_mem _ hr)
          exact hnn qe _ hmem
        · have hp := (hsorted qe).sublist
            (searchJoin_map_sublist st.metadata (knn qe topK))
          exact (List.pairwise_map.mp hp).imp (fun h => h)

/-- Witness for C3 at a concrete store and ANN boundary. -/
theorem C3_search_results_witness :
    (search 1 (fun _ => [[0]]) (fun _ _ => [((0 : Nat), (0 : Rat))]) "q" 2
      ⟨[(0, ⟨0, 0, 1⟩)], 1⟩).length ≤ 2 ∧
    (∀ r ∈ search 1 (fun _ => [[0]]) (fun _ _ => [((0 : Nat), (0 : Rat))]) "q" 2
      ⟨[(0, ⟨0, 0, 1⟩)], 1⟩,
      mapGet (⟨[(0, ⟨0, 0, 1⟩)], 1⟩ : IndexState).metadata r.chunk_id
        = some r.metadata ∧ 0 ≤ r.distance) ∧
    (search 1 (fun _ => [[0]]) (fun _ _ => [((0 : Nat), (0 : Rat))]) "q" 2
      ⟨[(0, ⟨0, 0, 1⟩)], 1⟩).Pairwise (fun a b => a.distance ≤ b.distance) :=
  C3_search_results 1 2 (fun _ => [[0]]) (fun _ _ => [((0 : Nat), (0 : Rat))])
    ⟨[(0, ⟨0, 0, 1⟩)], 1⟩ "q"
    (fun _ => by simp)
    (fun _ p hp => by simp at hp; simp [hp])
    (fun _ => by simp)

/-! ## Lemmas about `addChunks`, claims C2 and C4 -/

theorem addChunks_pos (dim : Nat) (ok : Nat → Bool)
    (embed : List String → List (List Rat))
    (chunks : List String) (frames : List Nat) (st : IndexState)
    (h : chunks ≠ []) :
    addChunks dim ok embed chunks frames st =
      ⟨(addChunksLoop dim ok (addItems embed chunks frames) st).1,
        (addChunksLoop dim ok (addItems embed chunks frames) st).2,
        [chunks]⟩ := by
  unfold addChunks
  rw [if_neg (by simpa using h)]

theorem addItems_length (embed : List String → List (List Rat))
    (chunks : List String) (frames : List Nat)
    (hf : frames.length = chunks.length)
    (he : (embed chunks).length = chunks.length) :
    (addItems embed chunks frames).length = chunks.length := by
  unfold addItems
  rw [List.length_map, List.length_zip, List.length_zip, hf, he]
  omega

theorem addItems_dim (dim : Nat) (embed : List String → List (List Rat))
    (chunks : List String) (frames : List Nat)
    (hd : ∀ e ∈ embed chunks, e.length = dim) :
    ∀ it ∈ addItems embed chunks frames, it.1.length = dim := by
  intro it hit
  unfold addItems at hit
  obtain ⟨p, hp, hfp⟩ := List.mem_map.mp hit
  obtain ⟨e, q⟩ := p
  have := (List.of_mem_zip hp).1
  subst hfp
  exact hd e this

theorem addChunks_all_ok (dim : Nat)
    (embed : List String → List (List Rat))
    (chunks : List String) (frames : List Nat) (st : IndexState)
    (hf : frames.length = chunks.length)
    (he : (embed chunks).length = chunks.length)
    (hd : ∀ e ∈ embed chunks, e.length = dim) :
    (addChunks dim (fun _ => true) embed chunks frames st).addedIds =
      List.range' st.nextChunkId chunks.length ∧
    (addChunks dim (fun _ => true) embed chunks frames st).state.nextChunkId =
      st.nextChunkId + chunks.length := by
  by_cases hc : chunks = []
  · subst hc
    exact ⟨rfl, rfl⟩
  · rw [addChunks_pos dim (fun _ => true) embed chunks frames st hc]
    have hall := addChunksLoop_all_ok dim (addItems embed chunks frames) st
      (addItems_dim dim embed chunks frames hd)
    rw [addItems_length embed chunks frames hf he] at hall
    exact hall

/-- Claim C2: on a fresh initialized store, `addChunks` with successful
embeddings of the configured dimension returns the strictly increasing ids
`0, 1, ...`; `save` followed by `load` restores `nextChunkId` exactly, so
the ids of a subsequent `addChunks` call continue strictly above every
previously assigned id and no id is ever reused. -/
theorem C2_ids_strictly_increasing (dim : Nat)
    (embed1 embed2 : List String → List (List Rat))
    (chunks1 chunks2 : List String) (frames1 frames2 : List Nat)
    (h1f : frames1.length = chunks1.length)
    (h1e : (embed1 chunks1).length = chunks1.length)
    (h1d : ∀ e ∈ embed1 chunks1, e.length = dim)
    (h2f : frames2.length = chunks2.length)
    (h2e : (embed2 chunks2).length = chunks2.length)
    (h2d : ∀ e ∈ embed2 chunks2, e.length = dim) :
    (addChunks dim (fun _ => true) embed1 chunks1 frames1 ⟨[], 0⟩).addedIds =
      List.range chunks1.length ∧
    (load (save (addChunks dim (fun _ => true) embed1 chunks1 frames1
        ⟨[], 0⟩).state)).nextChunkId =
      (addChunks dim (fun _ => true) embed1 chunks1 frames1 ⟨[], 0⟩).state.nextChunkId ∧
    (addChunks dim (fun _ => true) embed2 chunks2 frames2
        (load (save (addChunks dim (fun _ => true) embed1 chunks1 frames1
          ⟨[], 0⟩).state))).addedIds =
      List.range' chunks1.length chunks2.length ∧
    List.Pairwise (· < ·)
      ((addChunks dim (fun _ => true) embed1 chunks1 frames1 ⟨[], 0⟩).addedIds ++
        (addChunks dim (fun _ => true) embed2 chunks2 frames2
          (load (save (addChunks dim (fun _ => true) embed1 chunks1 frames1
            ⟨[], 0⟩).state))).addedIds) := by
  have hr1 := addChunks_all_ok dim embed1 chunks1 frames1 ⟨[], 0⟩ h1f h1e h1d
  have hids1 : (addChunks dim (fun _ => true) embed1 chunks1 frames1
      ⟨[], 0⟩).addedIds = List.range chunks1.length := by
    rw [List.range_eq_range']
    exact hr1.1
  have hn1 : (addChunks dim (fun _ => true) embed1 chunks1 frames1
      ⟨[], 0⟩).state.nextChunkId = chunks1.length := by
    simpa using hr1.2
  have hnext2 : (load (save (addChunks dim (fun _ => true) embed1 chunks1 frames1
      ⟨[], 0⟩).state)).nextChunkId =
      (addChunks dim (fun _ => true) embed1 chunks1 frames1
        ⟨[], 0⟩).state.nextChunkId := rfl
  have hr2 := addChunks_all_ok dim embed2 chunks2 frames2
    (load (save (addChunks dim (fun _ => true) embed1 chunks1 frames1
      ⟨[], 0⟩).state)) h2f h2e h2d
  have hids2 : (addChunks dim (fun _ => true) embed2 chunks2 frames2
      (load (save (addChunks dim (fun _ => true) embed1 chunks1 frames1
        ⟨[], 0⟩).state))).addedIds =
      List.range' chunks1.length chunks2.length := by
    rw [hr2.1, hnext2, hn1]
  refine ⟨hids1, hnext2, hids2, ?_⟩
  rw [hids1, hids2]
  rw [List.pairwise_append]
  refine ⟨List.pairwise_lt_range _, List.pairwise_lt_range' _ _, ?_⟩
  intro a ha b hb
  have ha2 := List.mem_range.mp ha
  have hb2 := (List.mem_range'_1.mp hb).1
  omega

/-- Witness for C2: two concrete batches through a persist and reload. -/
theorem C2_ids_strictly_increasing_witness :
    (addChunks 1 (fun _ => true) (fun ts => ts.map (fun _ => [0]))
      ["a", "b"] [0, 1] ⟨[], 0⟩).addedIds = List.range 2 ∧
    (load (save (addChunks 1 (fun _ => true) (fun ts => ts.map (fun _ => [0]))
        ["a", "b"] [0, 1] ⟨[], 0⟩).state)).nextChunkId =
      (addChunks 1 (fun _ => true) (fun ts => ts.map (fun _ => [0]))
        ["a", "b"] [0, 1] ⟨[], 0⟩).state.nextChunkId ∧
    (addChunks 1 (fun _ => true) (fun ts => ts.map (fun _ => [0])) ["c"] [0]
        (load (save (addChunks 1 (fun _ => true) (fun ts => ts.map (fun _ => [0]))
          ["a", "b"] [0, 1] ⟨[], 0⟩).state))).addedIds = List.range' 2 1 ∧
    List.Pairwise (· < ·)
      ((addChunks 1 (fun _ => true) (fun ts => ts.map (fun _ => [0]))
        ["a", "b"] [0, 1] ⟨[], 0⟩).addedIds ++
        (addChunks 1 (fun _ => true) (fun ts => ts.map (fun _ => [0])) ["c"] [0]
          (load (save (addChunks 1 (fun _ => true) (fun ts => ts.map (fun _ => [0]))
            ["a", "b"] [0, 1] ⟨[], 0⟩).state))).addedIds) :=
  C2_ids_strictly_increasing 1
    (fun ts => ts.map (fun _ => [0])) (fun ts => ts.map (fun _ => [0]))
    ["a", "b"] ["c"] [0, 1] [0]
    (by decide) (by rfl) (by decide) (by decide) (by rfl) (by decide)

/-- Claim C4: on an initialized store with equal-length inputs, an
embedding whose length differs from the configured dimension causes only
that item to be skipped (the result of the batch equals the result of
processing the worklist with the mismatching items removed, so the batch
never fails wholesale), the returned array is exactly the ids of the
successfully inserted items in input order (the new metadata entries are
appended in order and carry exactly the returned ids), and the returned
ids are strictly increasing. -/
theorem C4_dimension_mismatch_skips (dim : Nat) (ok : Nat → Bool)
    (embed : List String → List (List Rat))
    (chunks : List String) (frames : List Nat) (st : IndexState)
    (hW : WF st)
    (hf : frames.length = chunks.length)
    (he : (embed chunks).length = chunks.length) :
    let r := addChunks dim ok embed chunks frames st
    let kept := (addItems embed chunks frames).filter (fun it => it.1.length == dim)
    r.addedIds = (addChunksLoop dim ok kept st).1 ∧
    r.state = (addChunksLoop dim ok kept st).2 ∧
    (∃ new, r.state.metadata = st.metadata ++ new ∧
      new.map Prod.fst = r.addedIds) ∧
    List.Pairwise (· < ·) r.addedIds := by
  intro r kept
  by_cases hc : chunks = []
  · have hkept : kept = [] := by
      simp [kept, addItems, hc]
    have hr : r = ⟨[], st, []⟩ := by
      simp [r, hc, addChunks]
    rw [hr, hkept]
    exact ⟨rfl, rfl, ⟨[], by simp, rfl⟩, List.Pairwise.nil⟩
  · have hr : r = ⟨(addChunksLoop dim ok (addItems embed chunks frames) st).1,
        (addChunksLoop dim ok (addItems embed chunks frames) st).2, [chunks]⟩ :=
      addChunks_pos dim ok embed chunks frames st hc
    have hfilter := addChunksLoop_filter_dim dim ok (addItems embed chunks frames) st
    obtain ⟨new, hmeta, hids, _⟩ :=
      addChunksLoop_metadata_append dim ok (addItems embed chunks frames) st hW.2
    refine ⟨?_, ?_, ⟨new, ?_, ?_⟩, ?_⟩
    · rw [hr]
      exact congrArg Prod.fst hfilter
    · rw [hr]
      exact congrArg Prod.snd hfilter
    · rw [hr]
      exact hmeta
    · rw [hr]
      exact hids
    · rw [hr]
      exact addChunksLoop_ids_pairwise dim ok (addItems embed chunks frames) st

/-- Witness for C4: a concrete batch with one mismatching embedding. -/
theorem C4_dimension_mismatch_skips_witness :
    let embed : List String → List (List Rat) := fun _ => [[1, 2], [1], [3, 4]]
    let r := addChunks 2 (fun _ => true) embed ["aa", "b", "c"] [0, 1, 2] ⟨[], 0⟩
    let kept := (addItems embed ["aa", "b", "c"] [0, 1, 2]).filter
      (fun it => it.1.length == 2)
    r.addedIds = (addChunksLoop 2 (fun _ => true) kept ⟨[], 0⟩).1 ∧
    r.state = (addChunksLoop 2 (fun _ => true) kept ⟨[], 0⟩).2 ∧
    (∃ new, r.state.metadata = (⟨[], 0⟩ : IndexState).metadata ++ new ∧
      new.map Prod.fst = r.addedIds) ∧
    List.Pairwise (· < ·) r.addedIds :=
  C4_dimension_mismatch_skips 2 (fun _ => true) (fun _ => [[1, 2], [1], [3, 4]])
    ["aa", "b", "c"] [0, 1, 2] ⟨[], 0⟩ (by decide) (by decide) (by rfl)

/-- Claim C1 is violated by the code (code bug): building with exactly the
three chunks `["a","b","c"]`, with every QR generation succeeding and every
embedding succeeding at the configured dimension, leaves SIX `IndexEntry`
records — ids 0,1,2 recorded with frames 0,1,2 by the per-frame loop, and
ids 3,4,5 recorded with frames 0,1,2 again by the second, batch
`addChunks` call that `buildVideo` performs after video assembly
(encoder.ts lines 179-181) — instead of the three records in bijection
with the chunks that the claim (and the spec) state. -/
theorem C1_buildVideo_double_indexes :
    (buildVideoIndex 1 (fun _ => true) (fun ts => ts.map (fun _ => [0]))
      (fun _ => true) ["a", "b", "c"]).metadata.map (fun p => (p.1, p.2.frame)) =
      [(0, 0), (1, 1), (2, 2), (3, 0), (4, 1), (5, 2)] ∧
    (buildVideoIndex 1 (fun _ => true) (fun ts => ts.map (fun _ => [0]))
      (fun _ => true) ["a", "b", "c"]).metadata.length = 6 := by
  decide

/-! ## Claim C6: retriever failure sentinels and cache -/

theorem mapGet_mapSet_self {α : Type} (m : List (Nat × α)) (k : Nat) (v : α) :
    mapGet (mapSet m k v) k = some v := by
  induction m with
  | nil => simp [mapSet, mapGet]
  | cons p m ih =>
    by_cases hp : p.1 = k
    · have hany : (p :: m).any (fun q => q.1 == k) = true := by
        simp [hp]
      simp [mapSet, hany, mapGet, hp]
    · by_cases hm : m.any (fun q => q.1 == k)
      · have hany : (p :: m).any (fun q => q.1 == k) = true := by
          simp only [List.any_cons, hm, Bool.or_true]
        have h1 : mapSet m k v = m.map (fun q => if q.1 == k then (k, v) else q) := by
          simp [mapSet, hm]
        have h2 : mapSet (p :: m) k v =
            p :: m.map (fun q => if q.1 == k then (k, v) else q) := by
          simp only [mapSet, hany, if_pos, List.map_cons]
          rw [if_neg (by simpa using hp)]
        rw [h2]
        have h3 := ih
        rw [h1] at h3
        simpa [mapGet, List.find?_cons, hp] using h3
      · have hany : (p :: m).any (fun q => q.1 == k) = false := by
          simp only [List.any_cons, hm, Bool.or_false]
          simpa using hp
        have h1 : mapSet m k v = m ++ [(k, v)] := by
          simp [mapSet, hm]
        have h2 : mapSet (p :: m) k v = p :: (m ++ [(k, v)]) := by
          simp only [mapSet, hany]
          simp
        rw [h2]
        have h3 := ih
        rw [h1] at h3
        simpa [mapGet, List.find?_cons, hp] using h3

/-- Counterexample to claim C6 as stated: for a frame whose extraction
fails, `search` returns the sentinel `"[Frame 5 not readable]"`, which
embeds the frame number — not the bare `"[not readable]"` the claim
names. -/
theorem C6_sentinel_counterexample :
    (searchTexts (fun _ => none) (fun _ => none) [5] ⟨[], 100⟩).1 =
      ["[Frame 5 not readable]"] ∧
    (searchTexts (fun _ => none) (fun _ => none) [5] ⟨[], 100⟩).1 ≠
      ["[not readable]"] := by
  decide

/-- Claim C6 (amended): for a frame that is not yet cached, while the frame
cache is below capacity, the first search performs exactly one extraction
and caches its (failed) result, a second search hitting the same frame
performs no extraction and returns the same texts; a failed extraction
yields the sentinel `"[Frame n not readable]"` and a successful extraction
whose payload fails to parse yields `"[Frame n decode error]"` — the
sentinels embed the frame number. -/
theorem C6_failure_sentinel_cached (parse : String → Option String)
    (extract : Nat → Option String) (st : RetrieverState) (n : Nat)
    (hmiss : mapGet st.frameCache n = none)
    (hcap : st.frameCache.length < st.cacheSize) :
    let r1 := searchTexts parse extract [n] st
    let r2 := searchTexts parse extract [n] r1.2.1
    r1.2.2 = 1 ∧ r2.2.2 = 0 ∧ r2.1 = r1.1 ∧
    (extract n = none →
      r1.1 = ["[Frame " ++ toString n ++ " not readable]"]) ∧
    (∀ t, extract n = some t → t ≠ "" → parse t = none →
      r1.1 = ["[Frame " ++ toString n ++ " decode error]"]) := by
  intro r1 r2
  have hd1 : decodeSingleFrame extract st n =
      (extract n, ⟨mapSet st.frameCache n (extract n), st.cacheSize⟩, 1) := by
    unfold decodeSingleFrame
    rw [hmiss, if_pos hcap]
  have hr1 : r1 = ([frameText parse (extract n) n],
      ⟨mapSet st.frameCache n (extract n), st.cacheSize⟩, 1) := by
    show searchTexts parse extract [n] st = _
    unfold searchTexts
    rw [hd1]
    rfl
  have hd2 : decodeSingleFrame extract
      ⟨mapSet st.frameCache n (extract n), st.cacheSize⟩ n =
      (extract n, ⟨mapSet st.frameCache n (extract n), st.cacheSize⟩, 0) := by
    unfold decodeSingleFrame
    rw [mapGet_mapSet_self]
  have hr2 : r2 = ([frameText parse (extract n) n],
      ⟨mapSet st.frameCache n (extract n), st.cacheSize⟩, 0) := by
    show searchTexts parse extract [n] r1.2.1 = _
    rw [hr1]
    unfold searchTexts
    rw [hd2]
    rfl
  refine ⟨by rw [hr1], by rw [hr2], by rw [hr1, hr2], ?_, ?_⟩
  · intro hx
    rw [hr1]
    simp [frameText, hx]
  · intro t hx ht hp
    rw [hr1]
    simp [frameText, hx, ht, hp]

/-- Witness for the amended C6 at a concrete failing frame. -/
theorem C6_failure_sentinel_cached_witness :
    let r1 := searchTexts (fun _ => none) (fun _ => none) [5]
      (⟨[], 100⟩ : RetrieverState)
    let r2 := searchTexts (fun _ => none) (fun _ => none) [5] r1.2.1
    r1.2.2 = 1 ∧ r2.2.2 = 0 ∧ r2.1 = r1.1 ∧
    ((fun (_ : Nat) => (none : Option String)) 5 = none →
      r1.1 = ["[Frame " ++ toString 5 ++ " not readable]"]) ∧
    (∀ t, (fun (_ : Nat) => (none : Option String)) 5 = some t → t ≠ "" →
      (fun (_ : String) => (none : Option String)) t = none →
      r1.1 = ["[Frame " ++ toString 5 ++ " decode error]"]) :=
  C6_failure_sentinel_cached (fun _ => none) (fun _ => none) ⟨[], 100⟩ 5
    (by rfl) (by decide)

/-! ## Claim C8: QR payload compression round trip -/

theorem ungzip_gzip_model (s : String) : ungzipModel (gzipModel s) = some s := by
  unfold ungzipModel gzipModel
  have h : (s.toList.map Char.toNat).map Char.ofNat = s.toList := by
    rw [List.map_map]
    have h2 : (Char.ofNat ∘ Char.toNat) = id := by
      funext c
      exact Char.ofNat_toNat c
    rw [h2, List.map_id]
  simp only [h]
  cases s
  rfl

theorem atob_btoa_gzip_model (s : String) :
    atobModel (btoaModel (gzipModel s)) = some (gzipModel s) := by
  unfold atobModel btoaModel
  congr 1
  have hdata : (String.mk ((gzipModel s).map Char.ofNat)).toList =
      (gzipModel s).map Char.ofNat := rfl
  rw [hdata, List.map_map]
  have hvalid : ∀ b ∈ gzipModel s, (Char.toNat ∘ Char.ofNat) b = id b := by
    intro b hb
    rcases List.mem_cons.mp hb with h | h
    · subst h; decide
    · rcases List.mem_cons.mp h with h1 | h1
      · subst h1; decide
      · obtain ⟨c, _, hc⟩ := List.mem_map.mp h1
        subst hc
        show (Char.ofNat (Char.toNat c)).toNat = Char.toNat c
        rw [Char.ofNat_toNat]
  calc (gzipModel s).map (Char.toNat ∘ Char.ofNat)
      = (gzipModel s).map id := List.map_congr_left hvalid
    _ = gzipModel s := List.map_id _

/-- Counterexample to claim C8 as stated: the payload
`"GZ:" ++ base64(gzip("x"))` has length at most 100, so the encoder emits
it plain, but `processQrText` sees the `"GZ:"` marker, decompresses it and
returns `"x"` instead of the payload — a short payload that itself starts
with the marker is not returned unchanged. -/
theorem C8_roundtrip_counterexample :
    ("GZ:" ++ btoaModel (gzipModel "x")).length ≤ 100 ∧
    compressPayload gzipModel btoaModel ("GZ:" ++ btoaModel (gzipModel "x")) =
      "GZ:" ++ btoaModel (gzipModel "x") ∧
    processQrText atobModel ungzipModel ("GZ:" ++ btoaModel (gzipModel "x")) = "x" ∧
    "x" ≠ "GZ:" ++ btoaModel (gzipModel "x") := by
  decide

theorem startsWithGZ_append (x : String) : startsWithGZ ("GZ:" ++ x) = true := by
  unfold startsWithGZ
  have h : ("GZ:" ++ x).toList = "GZ:".toList ++ x.toList := String.data_append _ _
  rw [h]
  rw [show (3 : Nat) = ("GZ:".toList).length from rfl, List.take_left]
  rfl

theorem dropGZ_append (x : String) : dropGZ ("GZ:" ++ x) = x := by
  unfold dropGZ
  have h : ("GZ:" ++ x).toList = "GZ:".toList ++ x.toList := String.data_append _ _
  rw [h]
  have h2 : ("GZ:".toList ++ x.toList).drop 3 = x.toList := by
    rw [show (3 : Nat) = ("GZ:".toList).length from rfl, List.drop_left]
  rw [h2]
  cases x
  rfl

/-- Claim C8 (amended): decode inverts the encoder compression step.  A
payload longer than 100 characters is emitted as
`"GZ:" ++ base64(gzip(payload))` and `processQrText` recovers it exactly,
given the boundary inverse laws at this payload; a payload of at most 100
characters is emitted plain and `processQrText` returns it unchanged
provided it does not itself start with the `"GZ:"` marker (a short payload
that starts with the marker and decodes as a valid gzip+base64 blob is
mis-decompressed — see the counterexample). -/
theorem C8_payload_roundtrip (gzipF : String → List Nat)
    (btoaF : List Nat → String) (atobF : String → Option (List Nat))
    (ungzipF : List Nat → Option String) (data : String)
    (hab : atobF (btoaF (gzipF data)) = some (gzipF data))
    (hug : ungzipF (gzipF data) = some data) :
    (100 < data.length →
      processQrText atobF ungzipF (compressPayload gzipF btoaF data) = data) ∧
    (data.length ≤ 100 → startsWithGZ data = false →
      compressPayload gzipF btoaF data = data ∧
      processQrText atobF ungzipF data = data) := by
  constructor
  · intro hlen
    have hc : compressPayload gzipF btoaF data = "GZ:" ++ btoaF (gzipF data) := by
      unfold compressPayload
      rw [if_pos hlen]
    rw [hc]
    unfold processQrText
    simp only [startsWithGZ_append, dropGZ_append, hab, hug, if_true]
  · intro hlen hgz
    have hc : compressPayload gzipF btoaF data = data := by
      unfold compressPayload
      rw [if_neg (by omega)]
    refine ⟨hc, ?_⟩
    unfold processQrText
    rw [hgz]
    simp

/-- Witness for the amended C8: a 101-character payload through the
modelled gzip and base64 boundaries. -/
theorem C8_payload_roundtrip_witness :
    (100 < (String.mk (List.replicate 101 'a')).length →
      processQrText atobModel ungzipModel
        (compressPayload gzipModel btoaModel (String.mk (List.replicate 101 'a'))) =
        String.mk (List.replicate 101 'a')) ∧
    ((String.mk (List.replicate 101 'a')).length ≤ 100 →
      startsWithGZ (String.mk (List.replicate 101 'a')) = false →
      compressPayload gzipModel btoaModel (String.mk (List.replicate 101 'a')) =
        String.mk (List.replicate 101 'a') ∧
      processQrText atobModel ungzipModel (String.mk (List.replicate 101 'a')) =
        String.mk (List.replicate 101 'a')) :=
  C8_payload_roundtrip gzipModel btoaModel atobModel ungzipModel
    (String.mk (List.replicate 101 'a'))
    (atob_btoa_gzip_model _) (ungzip_gzip_model _)

/-! ## Claim C9: chat history -/

/-- Claim C9 is contradicted by the code (code bug): `MemvidChat.chat` is
retrieval-only — it returns the retrieved context and performs no history
bookkeeping, so the conversation history after any turn, and after any
sequence of turns, is exactly the history before it; no LLM prompt
containing history is ever composed and nothing is ever trimmed to
`maxHistoryLength`.  The repository test suite (test/memvidChat.test.ts,
"should handle chat history correctly") expects `chat` to send the system
prompt, the trimmed history and the user message to the LLM and to append
both turns to the history. -/
theorem C9_history_never_updated (retrieved : List String) (maxTok : Nat)
    (hist : List ChatMessage) (message : String) (msgs : List String)
    (r : String → List String) :
    (chat retrieved maxTok hist message).2 = hist ∧
    (msgs.foldl (fun h m => (chat (r m) maxTok h m).2) hist) = hist := by
  refine ⟨rfl, ?_⟩
  induction msgs generalizing hist with
  | nil => rfl
  | cons m ms ih =>
    rw [List.foldl_cons]
    exact ih hist

/-! ## Claim C7: trim infrastructure -/

theorem dropWhile_append_of_exists (p : Char → Bool) (A B : List Char)
    (h : ∃ x ∈ A, p x = false) :
    (A ++ B).dropWhile p = A.dropWhile p ++ B := by
  rw [List.dropWhile_append]
  have hne : A.dropWhile p ≠ [] := by
    intro hnil
    obtain ⟨x, hx, hpx⟩ := h
    have := List.dropWhile_eq_nil_iff.mp hnil x hx
    rw [this] at hpx
    exact Bool.noConfusion hpx
  rw [if_neg (by simpa [List.isEmpty_iff] using hne)]

theorem dropWhile_ne_nil_of_exists (p : Char → Bool) (A : List Char)
    (h : ∃ x ∈ A, p x = false) :
    A.dropWhile p ≠ [] := by
  intro hnil
  obtain ⟨x, hx, hpx⟩ := h
  have := List.dropWhile_eq_nil_iff.mp hnil x hx
  rw [this] at hpx
  exact Bool.noConfusion hpx

theorem getLast?_dropWhile (p : Char → Bool) (A : List Char)
    (h : A.dropWhile p ≠ []) :
    (A.dropWhile p).getLast? = A.getLast? := by
  conv_rhs => rw [← List.takeWhile_append_dropWhile p A]
  rw [List.getLast?_append_of_ne_nil _ h]

theorem head_dropWhile_false (p : Char → Bool) (l : List Char) :
    ∀ y ∈ (l.dropWhile p).head?, p y = false := by
  induction l with
  | nil => intro y hy; simp at hy
  | cons a l ih =>
    rw [List.dropWhile_cons]
    by_cases hpa : p a = true
    · rw [if_pos hpa]
      exact ih
    · rw [if_neg hpa]
      intro y hy
      simp only [List.head?_cons, Option.mem_def, Option.some.injEq] at hy
      subst hy
      exact Bool.eq_false_iff.mpr hpa

theorem dropWhile_eq_self_of_head (p : Char → Bool) (l : List Char)
    (h : ∀ y ∈ l.head?, p y = false) :
    l.dropWhile p = l := by
  cases l with
  | nil => rfl
  | cons a t =>
    rw [List.dropWhile_cons, if_neg]
    have := h a (by simp)
    simp [this]

theorem trimL_ne_nil_of_mem (l : List Char) (x : Char)
    (hx : x ∈ l) (hws : isWs x = false) :
    trimL l ≠ [] := by
  unfold trimL
  intro h
  rw [List.reverse_eq_nil_iff] at h
  have hmem : x ∈ l.dropWhile isWs := by
    have hsplit := List.takeWhile_append_dropWhile isWs l
    rcases List.mem_append.mp (by rw [hsplit]; exact hx) with h1 | h1
    · have := List.mem_takeWhile_imp h1
      rw [this] at hws
      exact Bool.noConfusion hws
    · exact h1
  have hmem2 : x ∈ (l.dropWhile isWs).reverse := List.mem_reverse.mpr hmem
  have := List.dropWhile_eq_nil_iff.mp h x hmem2
  rw [this] at hws
  exact Bool.noConfusion hws

theorem trimL_length_le (l : List Char) : (trimL l).length ≤ l.length := by
  unfold trimL
  calc ((l.dropWhile isWs).reverse.dropWhile isWs).reverse.length
      = ((l.dropWhile isWs).reverse.dropWhile isWs).length := List.length_reverse _
    _ ≤ (l.dropWhile isWs).reverse.length :=
        (List.dropWhile_suffix isWs).length_le
    _ = (l.dropWhile isWs).length := List.length_reverse _
    _ ≤ l.length := (List.dropWhile_suffix isWs).length_le

theorem trimL_head_last (l : List Char) (h : trimL l ≠ []) :
    (∀ y ∈ (trimL l).head?, isWs y = false) ∧
    (∀ y ∈ (trimL l).getLast?, isWs y = false) := by
  constructor
  · intro y hy
    have hne : (l.dropWhile isWs).reverse.dropWhile isWs ≠ [] := by
      intro hnil
      unfold trimL at h
      rw [hnil] at h
      exact h rfl
    have h1 : (trimL l).head? = ((l.dropWhile isWs).reverse.dropWhile isWs).getLast? := by
      unfold trimL
      exact List.head?_reverse _
    rw [h1] at hy
    have h2 := getLast?_dropWhile isWs (l.dropWhile isWs).reverse hne
    rw [h2, List.getLast?_reverse] at hy
    exact head_dropWhile_false isWs l y hy
  · intro y hy
    have h1 : (trimL l).getLast? = ((l.dropWhile isWs).reverse.dropWhile isWs).head? := by
      unfold trimL
      exact List.getLast?_reverse _
    rw [h1] at hy
    exact head_dropWhile_false isWs (l.dropWhile isWs).reverse y hy

theorem trimL_eq_self (l : List Char)
    (hh : ∀ y ∈ l.head?, isWs y = false)
    (hl : ∀ y ∈ l.getLast?, isWs y = false) :
    trimL l = l := by
  have h1 : l.dropWhile isWs = l := dropWhile_eq_self_of_head isWs l hh
  have h2 : l.reverse.dropWhile isWs = l.reverse := by
    apply dropWhile_eq_self_of_head
    intro y hy
    rw [List.head?_reverse] at hy
    exact hl y hy
  unfold trimL
  rw [h1, h2, List.reverse_reverse]

theorem trimL_idem (l : List Char) : trimL (trimL l) = trimL l := by
  by_cases h : trimL l = []
  · rw [h]
    rfl
  · exact trimL_eq_self (trimL l) (trimL_head_last l h).1 (trimL_head_last l h).2

theorem trimL_append_single_space (A B : List Char)
    (hAne : A ≠ []) (hA : ∀ y ∈ A.getLast?, isWs y = false)
    (hBne : B ≠ []) (hB : ∀ y ∈ B.head?, isWs y = false) :
    trimL (A ++ ' ' :: B) = trimL A ++ ' ' :: trimL B := by
  obtain ⟨p, hp⟩ : ∃ p, A.getLast? = some p := by
    cases hgl : A.getLast? with
    | none => exact absurd (List.getLast?_eq_none_iff.mp hgl) hAne
    | some p => exact ⟨p, rfl⟩
  obtain ⟨b, hbB⟩ : ∃ b, B.head? = some b := by
    cases hhB : B.head? with
    | none =>
      cases B with
      | nil => exact absurd rfl hBne
      | cons x t => simp at hhB
    | some b => exact ⟨b, rfl⟩
  have hpA : p ∈ A := List.mem_of_mem_getLast? hp
  have hpw : isWs p = false := hA p hp
  have hbw : isWs b = false := hB b hbB
  have hbmem : b ∈ B := by
    cases B with
    | nil => simp at hbB
    | cons x t =>
      simp only [List.head?_cons, Option.some.injEq] at hbB
      subst hbB
      exact List.mem_cons_self _ _
  have hexA : ∃ x ∈ A, isWs x = false := ⟨p, hpA, hpw⟩
  have hexBr : ∃ x ∈ B.reverse, isWs x = false := ⟨b, List.mem_reverse.mpr hbmem, hbw⟩
  -- left drop
  have hL : (A ++ ' ' :: B).dropWhile isWs = A.dropWhile isWs ++ ' ' :: B :=
    dropWhile_append_of_exists isWs A (' ' :: B) hexA
  have hA1ne : A.dropWhile isWs ≠ [] := dropWhile_ne_nil_of_exists isWs A hexA
  have hA1last : (A.dropWhile isWs).getLast? = A.getLast? :=
    getLast?_dropWhile isWs A hA1ne
  -- right drop on the reversed list
  have hrev : (A.dropWhile isWs ++ ' ' :: B).reverse =
      (B.reverse ++ [' ']) ++ (A.dropWhile isWs).reverse := by
    rw [List.reverse_append, List.reverse_cons, List.append_assoc]
  have hexBr2 : ∃ x ∈ B.reverse ++ [' '], isWs x = false := by
    obtain ⟨x, hx, hxw⟩ := hexBr
    exact ⟨x, List.mem_append.mpr (Or.inl hx), hxw⟩
  have hR1 : ((B.reverse ++ [' ']) ++ (A.dropWhile isWs).reverse).dropWhile isWs =
      (B.reverse ++ [' ']).dropWhile isWs ++ (A.dropWhile isWs).reverse :=
    dropWhile_append_of_exists isWs _ _ hexBr2
  have hR2 : (B.reverse ++ [' ']).dropWhile isWs =
      B.reverse.dropWhile isWs ++ [' '] :=
    dropWhile_append_of_exists isWs _ _ hexBr
  -- assemble the left side
  have hmain : trimL (A ++ ' ' :: B) =
      A.dropWhile isWs ++ ' ' :: (B.reverse.dropWhile isWs).reverse := by
    unfold trimL
    rw [hL, hrev, hR1, hR2]
    rw [List.reverse_append, List.reverse_reverse, List.reverse_append]
    simp
  -- identify trimL A
  have htA : trimL A = A.dropWhile isWs := by
    unfold trimL
    have : (A.dropWhile isWs).reverse.dropWhile isWs = (A.dropWhile isWs).reverse := by
      apply dropWhile_eq_self_of_head
      intro y hy
      rw [List.head?_reverse, hA1last] at hy
      exact hA y hy
    rw [this, List.reverse_reverse]
  -- identify trimL B
  have htB : trimL B = (B.reverse.dropWhile isWs).reverse := by
    unfold trimL
    rw [dropWhile_eq_self_of_head isWs B hB]
  rw [hmain, htA, htB]

theorem trimL_append_space_nil (A : List Char)
    (hAne : A ≠ []) (hA : ∀ y ∈ A.getLast?, isWs y = false) :
    trimL (A ++ [' ']) = trimL A := by
  obtain ⟨p, hp⟩ : ∃ p, A.getLast? = some p := by
    cases hgl : A.getLast? with
    | none => exact absurd (List.getLast?_eq_none_iff.mp hgl) hAne
    | some p => exact ⟨p, rfl⟩
  have hexA : ∃ x ∈ A, isWs x = false := ⟨p, List.mem_of_mem_getLast? hp, hA p hp⟩
  have hL : (A ++ [' ']).dropWhile isWs = A.dropWhile isWs ++ [' '] :=
    dropWhile_append_of_exists isWs A [' '] hexA
  unfold trimL
  rw [hL, List.reverse_append]
  have hws : isWs ' ' = true := rfl
  have : ([' '].reverse ++ (A.dropWhile isWs).reverse).dropWhile isWs =
      (A.dropWhile isWs).reverse.dropWhile isWs := by
    simp only [List.reverse_cons, List.reverse_nil, List.nil_append,
      List.singleton_append, List.dropWhile_cons, hws, if_true]
  rw [this]

/-! ## Claim C7: the join and the splitter characterization -/

theorem joinSp_cons (x : List Char) (l : List (List Char)) (h : l ≠ []) :
    joinSp (x :: l) = x ++ ' ' :: joinSp l := by
  cases l with
  | nil => exact absurd rfl h
  | cons y t => rfl

theorem length_le_joinSp (x : List Char) (l : List (List Char)) (h : x ∈ l) :
    x.length ≤ (joinSp l).length := by
  induction l with
  | nil => simp at h
  | cons y t ih =>
    cases t with
    | nil =>
      simp only [List.mem_singleton] at h
      subst h
      exact le_refl _
    | cons z w =>
      rw [joinSp_cons y (z :: w) (by simp)]
      rcases List.mem_cons.mp h with h1 | h1
      · subst h1
        simp [List.length_append]
      · have := ih h1
        simp only [List.length_append, List.length_cons]
        omega

theorem joinSp_glue (A B : List Char) (R : List (List Char)) :
    joinSp ((A ++ ' ' :: B) :: R) = joinSp (A :: B :: R) := by
  cases R with
  | nil => rfl
  | cons r rs =>
    rw [joinSp_cons _ (r :: rs) (by simp), joinSp_cons A (B :: r :: rs) (by simp),
      joinSp_cons B (r :: rs) (by simp)]
    simp [List.append_assoc]

theorem sentencesOf_cons_ne (x : List Char) (ps : List (List Char))
    (h : trimL x ≠ []) :
    sentencesOf (x :: ps) = trimL x :: sentencesOf ps := by
  unfold sentencesOf
  rw [List.map_cons, List.filter_cons_of_pos (by simpa [List.isEmpty_iff] using h)]

theorem sentencesOf_cons_nil (x : List Char) (ps : List (List Char))
    (h : trimL x = []) :
    sentencesOf (x :: ps) = sentencesOf ps := by
  unfold sentencesOf
  rw [List.map_cons, List.filter_cons_of_neg (by simp [List.isEmpty_iff, h])]

/-- On input whose whitespace characters are all plain spaces, the fueled
regex splitter coincides with the plain space-after-punctuation splitter. -/
theorem splitSentencesAux_eq_simple (fuel : Nat) :
    ∀ (cs acc : List Char) (prev : Option Char),
    cs.length < fuel →
    (∀ c ∈ cs, isWs c = true → c = ' ') →
    List.Chain' (fun a b => ¬(isWs a = true ∧ isWs b = true)) cs →
    (match acc with
      | [] => isPunctOpt prev = false
      | a :: _ => prev = some a) →
    splitSentencesAux fuel prev acc cs = simpleSplitAux acc cs := by
  induction fuel with
  | zero => intro cs acc prev hfuel; omega
  | succ fuel ih =>
    intro cs acc prev hfuel hsp hch hprev
    cases cs with
    | nil =>
      cases acc with
      | nil => rfl
      | cons a t => rfl
    | cons c rest =>
      have hcond : (isPunctOpt prev && isWs c) = (isPunctOpt acc.head? && (c == ' ')) := by
        have hpeq : isPunctOpt prev = isPunctOpt acc.head? := by
          cases acc with
          | nil => simp only [List.head?_nil]; rw [hprev]; rfl
          | cons a t => rw [hprev]; rfl
        rw [hpeq]
        by_cases hc : c = ' '
        · subst hc; rfl
        · have hws : isWs c = false := by
            rcases Bool.eq_false_or_eq_true (isWs c) with h | h
            · exact absurd (hsp c (List.mem_cons_self _ _) h) hc
            · exact h
          rw [hws]
          have : (c == ' ') = false := by simpa using hc
          rw [this]
      by_cases hsep : (isPunctOpt acc.head? && (c == ' ')) = true
      · -- separator branch on both sides
        have hc : c = ' ' := by
          have := (Bool.and_eq_true _ _).mp hsep
          simpa using this.2
        have hx : (isPunctOpt prev && isWs c) = true := by rw [hcond]; exact hsep
        have hnl : ¬(c == '\n' && rest.head? == some '\n') = true := by
          subst hc; simp
        have hcr : ¬(c == '\r' && rest.take 3 == ['\n', '\r', '\n']) = true := by
          subst hc; simp
        have hdrop : rest.dropWhile isWs = rest := by
          apply dropWhile_eq_self_of_head
          intro y hy
          cases rest with
          | nil => simp at hy
          | cons b t =>
            have hyb : y = b := by
              simpa [eq_comm] using hy
            subst hyb
            have hR := (List.chain'_cons.mp hch).1
            subst hc
            rcases Bool.eq_false_or_eq_true (isWs y) with h | h
            · exact absurd ⟨rfl, h⟩ hR
            · exact h
        show splitSentencesAux (fuel + 1) prev acc (c :: rest) = _
        unfold splitSentencesAux
        rw [if_pos hx]
        unfold simpleSplitAux
        rw [if_pos hsep, hdrop]
        congr 1
        apply ih rest [] (some ' ')
        · simpa using hfuel
        · intro x hx2 hw
          exact hsp x (List.mem_cons_of_mem _ hx2) hw
        · exact hch.tail
        · rfl
      · -- plain character on both sides
        have hx : ¬(isPunctOpt prev && isWs c) = true := by rw [hcond]; exact hsep
        have hnl : ¬(c == '\n' && rest.head? == some '\n') = true := by
          intro hcl
          have h1 := (Bool.and_eq_true _ _).mp hcl
          have hc : c = '\n' := by simpa using h1.1
          have h2 : c = ' ' := hsp c (List.mem_cons_self _ _) (by rw [hc]; rfl)
          rw [hc] at h2
          exact absurd h2 (by decide)
        have hcr : ¬(c == '\r' && rest.take 3 == ['\n', '\r', '\n']) = true := by
          intro hcl
          have h1 := (Bool.and_eq_true _ _).mp hcl
          have hc : c = '\r' := by simpa using h1.1
          have h2 : c = ' ' := hsp c (List.mem_cons_self _ _) (by rw [hc]; rfl)
          rw [hc] at h2
          exact absurd h2 (by decide)
        show splitSentencesAux (fuel + 1) prev acc (c :: rest) = _
        unfold splitSentencesAux
        rw [if_neg hx, if_neg hnl, if_neg hcr]
        unfold simpleSplitAux
        rw [if_neg hsep]
        apply ih rest (c :: acc) (some c)
        · simpa using hfuel
        · intro x hx2 hw
          exact hsp x (List.mem_cons_of_mem _ hx2) hw
        · exact hch.tail
        · rfl

theorem isWs_false_of_isPunct (c : Char) (h : isPunct c = true) : isWs c = false := by
  unfold isPunct at h
  have h2 : (c = '.' ∨ c = '?') ∨ c = '!' := by simpa using h
  rcases h2 with (h1 | h1) | h1 <;> subst h1 <;> rfl

/-- Joining the trimmed non-empty sentences of the plain splitter with
single spaces reproduces the trimmed input, whenever no two whitespace
characters of the input are adjacent. -/
theorem simpleSplitAux_join (cs : List Char) :
    ∀ acc : List Char,
    List.Chain' (fun a b => ¬(isWs a = true ∧ isWs b = true)) (acc.reverse ++ cs) →
    joinSp (sentencesOf (simpleSplitAux acc cs)) = trimL (acc.reverse ++ cs) := by
  induction cs with
  | nil =>
    intro acc hch
    show joinSp (sentencesOf [acc.reverse]) = trimL (acc.reverse ++ [])
    rw [List.append_nil]
    by_cases h : trimL acc.reverse = []
    · rw [sentencesOf_cons_nil _ [] h]
      exact h.symm
    · rw [sentencesOf_cons_ne _ [] h]
      rfl
  | cons c cs ih =>
    intro acc hch
    show joinSp (sentencesOf (simpleSplitAux acc (c :: cs))) =
      trimL (acc.reverse ++ c :: cs)
    unfold simpleSplitAux
    by_cases hsep : (isPunctOpt acc.head? && (c == ' ')) = true
    · rw [if_pos hsep]
      cases acc with
      | nil =>
        exfalso
        simp [isPunctOpt] at hsep
      | cons a acc2 =>
        have hc : c = ' ' := by
          have := (Bool.and_eq_true _ _).mp hsep
          simpa using this.2
        have ha : isPunct a = true := by
          have := (Bool.and_eq_true _ _).mp hsep
          simpa [isPunctOpt] using this.1
        have haw : isWs a = false := isWs_false_of_isPunct a ha
        have hamem : a ∈ (a :: acc2).reverse :=
          List.mem_reverse.mpr (List.mem_cons_self _ _)
        have hAne : (a :: acc2).reverse ≠ [] := by
          simp
        have hAlast : ((a :: acc2).reverse).getLast? = some a := by
          rw [List.getLast?_reverse]
          rfl
        have hAlastw : ∀ y ∈ ((a :: acc2).reverse).getLast?, isWs y = false := by
          intro y hy
          rw [hAlast] at hy
          have : y = a := by simpa [eq_comm] using hy
          subst this
          exact haw
        have hAtne : trimL (a :: acc2).reverse ≠ [] :=
          trimL_ne_nil_of_mem _ a hamem haw
        rw [sentencesOf_cons_ne _ _ hAtne]
        subst hc
        cases cs with
        | nil =>
          have hS : sentencesOf (simpleSplitAux [] []) = [] := rfl
          rw [hS]
          show trimL (a :: acc2).reverse = trimL ((a :: acc2).reverse ++ [' '])
          rw [trimL_append_space_nil _ hAne hAlastw]
        | cons b t =>
          have hch2 : List.Chain' (fun x y => ¬(isWs x = true ∧ isWs y = true))
              (' ' :: b :: t) :=
            (List.chain'_append.mp hch).2.1
          have hbw : isWs b = false := by
            have hR := (List.chain'_cons.mp hch2).1
            rcases Bool.eq_false_or_eq_true (isWs b) with h | h
            · exact absurd ⟨rfl, h⟩ hR
            · exact h
          have hJ := ih [] (by simpa using hch2.tail)
          rw [List.reverse_nil, List.nil_append] at hJ
          have htne : trimL (b :: t) ≠ [] :=
            trimL_ne_nil_of_mem _ b (List.mem_cons_self _ _) hbw
          have hSne : sentencesOf (simpleSplitAux [] (b :: t)) ≠ [] := by
            intro h0
            rw [h0] at hJ
            exact htne (hJ.symm ▸ rfl)
          rw [joinSp_cons _ _ hSne, hJ]
          rw [trimL_append_single_space _ _ hAne hAlastw (by simp)
            (by intro y hy
                have : y = b := by simpa [eq_comm] using hy
                subst this
                exact hbw)]
    · rw [if_neg hsep]
      have heq : (c :: acc).reverse ++ cs = acc.reverse ++ c :: cs := by
        simp
      rw [← heq] at hch ⊢
      exact ih (c :: acc) hch

/-! ## Claim C7: the accumulation loop never flushes within budget -/

theorem chunkLoop_no_flush (size ov : Nat) (S : List (List Char)) :
    ∀ (chunks : List (List Char)) (cur : List Char),
    (∀ p ∈ S, trimL p ≠ []) →
    cur ≠ [] → trimL cur = cur →
    (joinSp (cur :: S.map trimL)).length ≤ size →
    chunkLoop size ov S (chunks, cur) = (chunks, joinSp (cur :: S.map trimL)) := by
  induction S with
  | nil =>
    intro chunks cur _ _ _ _
    rfl
  | cons p S ih =>
    intro chunks cur hS hcne hctrim hlen
    simp only [List.map_cons] at hlen ⊢
    have hpne : trimL p ≠ [] := hS p (List.mem_cons_self _ _)
    have hlen2 : cur.length + 1 + (joinSp (trimL p :: S.map trimL)).length ≤ size := by
      have hlen3 := hlen
      rw [joinSp_cons cur (trimL p :: S.map trimL) (by simp)] at hlen3
      simp only [List.length_append, List.length_cons] at hlen3
      omega
    have hplen2 : (trimL p).length ≤ (joinSp (trimL p :: S.map trimL)).length :=
      length_le_joinSp _ _ (List.mem_cons_self _ _)
    have hcpos : 0 < cur.length := List.length_pos.mpr hcne
    unfold chunkLoop
    rw [if_neg (by
      intro h0
      exact hpne (List.length_eq_zero.mp h0))]
    rw [if_neg (by omega)]
    rw [if_neg (by
      intro hand
      have h1 := hand.1
      rw [if_pos hcpos] at h1
      omega)]
    rw [if_pos hcpos]
    have hcur_facts := trimL_head_last cur (by rw [hctrim]; exact hcne)
    have hp_facts := trimL_head_last p hpne
    have hctrim2 : trimL (cur ++ ' ' :: trimL p) = cur ++ ' ' :: trimL p := by
      have h1 : trimL (cur ++ ' ' :: trimL p) = trimL cur ++ ' ' :: trimL (trimL p) :=
        trimL_append_single_space cur (trimL p) hcne
          (by
            intro y hy
            apply hcur_facts.2 y
            rw [hctrim]
            exact hy)
          hpne hp_facts.1
      rw [h1, hctrim, trimL_idem]
    have hglue : joinSp ((cur ++ ' ' :: trimL p) :: S.map trimL) =
        joinSp (cur :: trimL p :: S.map trimL) := joinSp_glue _ _ _
    have hrec := ih chunks (cur ++ ' ' :: trimL p)
      (fun q hq => hS q (List.mem_cons_of_mem _ hq))
      (by simp) hctrim2
      (by rw [hglue]; exact hlen)
    rw [hrec, hglue]

/-! ## Claim C7: counterexample and amended theorem -/

/-- Counterexample to claim C7 as stated: `"Hi.\nBye."` is 8 characters
long with a non-empty trim, yet `chunkText` returns `["Hi. Bye."]` — the
sentence-splitting newline is normalized to a single space, so the single
chunk is not `text.trim()`. -/
theorem C7_trim_counterexample :
    chunkText "Hi.\nBye." 100 0 = ["Hi. Bye."] ∧
    chunkText "Hi.\nBye." 100 0 ≠ [trimS "Hi.\nBye."] := by
  decide

/-- Claim C7 (amended): for text with a non-empty trim, of length at most
`s` (`s > 0`), in which every whitespace character is a plain space and no
two whitespace characters are adjacent, `chunkText(text, s, o)` returns
exactly one chunk, equal to `text.trim()`.  (For other inter-sentence
whitespace the single chunk re-joins the sentences with single spaces —
see the counterexample.) -/
theorem C7_single_chunk (text : String) (s o : Nat)
    (hs : 0 < s)
    (hne : trimL text.toList ≠ [])
    (hlen : text.toList.length ≤ s)
    (hss : SingleSpaced text.toList) :
    chunkText text s o = [String.mk (trimL text.toList)] := by
  have hs0 : ¬(s = 0) := by omega
  have hsplit : splitSentences text.toList = simpleSplitAux [] text.toList := by
    unfold splitSentences
    exact splitSentencesAux_eq_simple (text.toList.length + 1) text.toList [] none
      (by omega) hss.1 hss.2 rfl
  have hJ : joinSp (sentencesOf (simpleSplitAux [] text.toList)) = trimL text.toList := by
    have h0 := simpleSplitAux_join text.toList []
    simp only [List.reverse_nil, List.nil_append] at h0
    exact h0 hss.2
  have hSmap : sentencesOf (simpleSplitAux [] text.toList) =
      ((simpleSplitAux [] text.toList).filter (fun x => !(trimL x).isEmpty)).map trimL := by
    unfold sentencesOf
    exact List.filter_map trimL _
  simp only [chunkText]
  rw [if_neg hne, if_neg hs0, hsplit]
  set St := (simpleSplitAux [] text.toList).filter (fun x => !(trimL x).isEmpty) with hSt
  have hSne : St ≠ [] := by
    intro h0
    rw [h0] at hSmap
    rw [hSmap] at hJ
    exact hne (by exact hJ.symm)
  rw [if_neg hSne]
  obtain ⟨q, Q, hqQ⟩ : ∃ q Q, St = q :: Q := by
    cases hc : St with
    | nil => exact absurd hc hSne
    | cons q Q => exact ⟨q, Q, rfl⟩
  have hmemf : ∀ p ∈ St, trimL p ≠ [] := by
    intro p hp
    have h1 := (List.mem_filter.mp (hSt ▸ hp)).2
    intro h0
    rw [h0] at h1
    simp at h1
  have hT : joinSp (trimL q :: Q.map trimL) = trimL text.toList := by
    have h1 : sentencesOf (simpleSplitAux [] text.toList) = trimL q :: Q.map trimL := by
      rw [hSmap, hqQ, List.map_cons]
    rw [← h1]
    exact hJ
  have hTlen : (trimL text.toList).length ≤ s :=
    le_trans (trimL_length_le _) hlen
  have hqne : trimL q ≠ [] := hmemf q (by rw [hqQ]; exact List.mem_cons_self _ _)
  have hqlen : (trimL q).length ≤ s := by
    have h1 : (trimL q).length ≤ (joinSp (trimL q :: Q.map trimL)).length :=
      length_le_joinSp _ _ (List.mem_cons_self _ _)
    rw [hT] at h1
    omega
  have hloop : chunkLoop s (if s ≤ o then s / 2 else o) St ([], []) =
      ([], trimL text.toList) := by
    rw [hqQ]
    unfold chunkLoop
    rw [if_neg (by
      intro h0
      exact hqne (List.length_eq_zero.mp h0))]
    rw [if_neg (show ¬(s < (trimL q).length) by omega)]
    rw [if_neg (show ¬(s < List.length ([] : List Char) +
        (if 0 < List.length ([] : List Char) then 1 else 0) + (trimL q).length ∧
        0 < List.length ([] : List Char)) by simp)]
    rw [if_neg (show ¬(0 < List.length ([] : List Char)) by simp)]
    have hrec := chunkLoop_no_flush s (if s ≤ o then s / 2 else o) Q [] (trimL q)
      (fun p hp => hmemf p (by rw [hqQ]; exact List.mem_cons_of_mem _ hp))
      hqne (trimL_idem q)
      (by rw [hT]; exact hTlen)
    rw [hrec, hT]
  rw [hloop]
  show ((if 0 < (trimL (trimL text.toList)).length then
      [] ++ [trimL (trimL text.toList)] else ([] : List (List Char))).filter
      (fun c => !c.isEmpty)).map (fun l => String.mk l) =
    [String.mk (trimL text.toList)]
  rw [trimL_idem]
  rw [if_pos (List.length_pos.mpr hne), List.nil_append]
  rw [List.filter_cons_of_pos (by simpa [List.isEmpty_iff] using hne)]
  rfl

/-- Witness for the amended C7 at a concrete single-spaced text. -/
theorem C7_single_chunk_witness :
    chunkText "Hello world. Bye." 100 0 =
      [String.mk (trimL "Hello world. Bye.".toList)] :=
  C7_single_chunk "Hello world. Bye." 100 0 (by decide) (by decide) (by decide)
    ⟨by decide, by rw [List.chain'_iff_get]; decide⟩

end Memvid
